import Mathlib

/-!
Shallow embedding of the protocol-client and navigation core of goph
(src/goph.c): location parsing (parseurl), title formatting (fmturl),
request construction (sendreq), the receive loop (recvcontent), menu line
parsing (menuaddline, menuaddtextline) and the history state machine
(menutrunc, menuadd, back, and the history block of navigate).

C strings are modelled as List Char (one Char per byte), size_t and int
counters as Nat and Int, and fallible operations return Option or a
Bool error flag, mirroring the int return codes of the C functions.
-/

namespace Goph

set_option maxRecDepth 100000

/-- One menu entry: struct Item of goph.c (type, name, sel, host, port).
The C port field is a short; every value stored in it comes from
strtonum(..., 0, SHRT_MAX, ...) or the literal 70, so it is modelled as Int. -/
structure Item where
  type : Char
  name : List Char
  sel : List Char
  host : List Char
  port : Int
deriving DecidableEq

/-- struct Menu of goph.c, reduced to the fields with observable content:
the item array (items, len) and the cursor pos. The capacity field only
controls reallocation and is dropped. -/
structure Menu where
  items : List Item
  pos : Nat
deriving DecidableEq

/-- Result of parseurl: the (type, sel, host, port) out-parameters. -/
structure Loc where
  type : Char
  sel : List Char
  host : List Char
  port : Int
deriving DecidableEq

/-! ### Decimal numbers: digits of %d and the strtonum(3) model -/

/-- The ten decimal digit characters. -/
def digitChars : List Char := ['0', '1', '2', '3', '4', '5', '6', '7', '8', '9']

/-- Decimal digit character for a value below ten. -/
def digitChar (d : Nat) : Char := digitChars.getD d '0'

/-- Numeric value of a decimal digit character. -/
def digitVal (c : Char) : Nat := c.toNat - 48

/-- Value of a most-significant-first decimal digit string. -/
def digitsVal (l : List Char) : Nat := l.foldl (fun a c => 10 * a + digitVal c) 0

/-- Fuelled most-significant-first decimal rendering of a Nat. -/
def natDigitsAux : Nat → Nat → List Char
  | 0, _ => []
  | fuel + 1, n =>
    if n < 10 then [digitChar n]
    else natDigitsAux fuel (n / 10) ++ [digitChar (n % 10)]

/-- Most-significant-first decimal digits of a Nat, as printed by %u. -/
def natDigits (n : Nat) : List Char := natDigitsAux (n + 1) n

/-- Decimal rendering of an Int, as printed by %d. -/
def intDec (i : Int) : List Char :=
  if i < 0 then '-' :: natDigits (-i).toNat else natDigits i.toNat

/-- isspace(3) in the C locale: the characters skipped by strtoll before
the number. -/
def isspaceC (c : Char) : Bool :=
  c == ' ' || c == '\t' || c == '\n' || c == Char.ofNat 11 || c == Char.ofNat 12 || c == '\r'

/-- Model of OpenBSD strtonum(3) as used by goph.c (base 10): strtoll skips
leading whitespace, consumes one optional sign and then decimal digits; the
conversion fails if no digit was consumed or a character is left over, and
the result must lie in [minval, maxval]. Overflow clamping of strtoll does
not change the outcome for the [0, 32767] range used here, so the value is
computed exactly. -/
def strtonum (s : List Char) (minval maxval : Int) : Option Int :=
  let l1 := s.dropWhile isspaceC
  let sgn : Int := if l1.head? = some '-' then -1 else 1
  let l2 := if l1.head? = some '-' ∨ l1.head? = some '+' then l1.tail else l1
  let ds := l2.takeWhile Char.isDigit
  let rest := l2.dropWhile Char.isDigit
  if ds = [] ∨ rest ≠ [] then none
  else if sgn * (digitsVal ds : Int) < minval ∨ maxval < sgn * (digitsVal ds : Int) then none
  else some (sgn * (digitsVal ds : Int))

/-- Claim-side reading of a numeric port field, stated from the words of
the specification rather than from the code, to be compared with the
strtonum model: the field denotes the value v when it consists of optional
leading whitespace, at most one sign and at least one decimal digit, v
being the signed value of the digits. A field is non-numeric exactly when
it denotes no value. -/
def portNumeric (ps : List Char) (v : Int) : Prop :=
  ∃ ws sgn ds : List Char,
    (∀ c ∈ ws, isspaceC c = true) ∧
    (sgn = [] ∨ sgn = ['+'] ∨ sgn = ['-']) ∧
    ds ≠ [] ∧ (∀ c ∈ ds, Char.isDigit c = true) ∧
    ps = ws ++ sgn ++ ds ∧
    v = (if sgn = ['-'] then -1 else 1) * (digitsVal ds : Int)

/-! ### parseurl (goph.c:421-476) and fmturl (goph.c:388-395) -/

/-- Character class scanned over by strcspn(url, ":/") in parseurl. -/
def notHostEnd (c : Char) : Bool := !(c == ':' || c == '/')

/-- Character class scanned over by strcspn(url, "/") in parseurl. -/
def notSlash (c : Char) : Bool := !(c == '/')

/-- The scheme prefix stripped by parseurl. -/
def schemeChars : List Char := ['g', 'o', 'p', 'h', 'e', 'r', ':', '/', '/']

/-- Tail of parseurl (goph.c:455-460): one remaining character, if any, is
consumed as the item type, defaulting to the menu type; the rest is the
selector, taken verbatim. -/
def loctail (p : Int) (host u : List Char) : Loc :=
  match u with
  | [] => ⟨'1', [], host, p⟩
  | c :: rest => ⟨c, rest, host, p⟩

/-- parseurl (goph.c:421-476). Strips an optional gopher:// prefix, scans
the host up to the first colon or slash, parses an optional :port with
strtonum(portstr, 0, SHRT_MAX), then hands the remainder to loctail.
Returns none exactly when the C function returns 1 (invalid port). -/
def parseurl (url : List Char) : Option Loc :=
  let u := if url.take 9 = schemeChars then url.drop 9 else url
  let host := u.takeWhile notHostEnd
  let u1 := u.dropWhile notHostEnd
  if u1.head? = some ':' then
    let u2 := u1.tail
    let portstr := u2.takeWhile notSlash
    let u3 := u2.dropWhile notSlash
    match strtonum portstr 0 32767 with
    | none => none
    | some portnum => some (loctail portnum host u3)
  else some (loctail 70 host u1)

/-- fmturl (goph.c:388-395) before the snprintf buffer cut:
host:port/type+sel, with :port omitted when the port is 70. -/
def fmturlRaw (type : Char) (sel host : List Char) (port : Int) : List Char :=
  if port ≠ 70 then host ++ ':' :: intDec port ++ '/' :: type :: sel
  else host ++ '/' :: type :: sel

/-- fmturl with its buflen argument: snprintf stores at most buflen - 1
characters. navigate calls it with a 256 byte buffer. -/
def fmturl (buflen : Nat) (type : Char) (sel host : List Char) (port : Int) : List Char :=
  (fmturlRaw type sel host port).take (buflen - 1)

/-- Parse-then-format composition used by the round-trip property:
the canonical title of the location a string parses to. -/
def titleOf (l : Loc) : List Char := fmturlRaw l.type l.sel l.host l.port

/-- Round trip: parse a location string and reformat the result. -/
def roundtrip (s : List Char) : Option (List Char) := (parseurl s).map titleOf

/-! ### sendreq (goph.c:516-530) -/

/-- The bytes sendreq hands to send(2): snprintf(req, reqlen, "%s\r\n", sel)
fills a buffer of reqlen = strlen(sel) + 3 bytes with the selector, CR, LF
and the terminating NUL, and send is asked to transmit all reqlen bytes. -/
def sendreqBytes (sel : List Char) : List Char := sel ++ ['\r', '\n', Char.ofNat 0]

/-- sendreq fails (returns 1) iff send wrote fewer bytes than requested. -/
def sendreqFails (sel : List Char) (nsent : Int) : Bool :=
  nsent < (sendreqBytes sel).length

/-! ### menuaddline (goph.c:551-599) and menuaddtextline (goph.c:601-606) -/

/-- strsep(&p, "\t"): on a live pointer, the token runs to the first tab
(consumed) or to the end of the string (pointer becomes NULL). -/
def strsepTab : Option (List Char) → Option (List Char) × Option (List Char)
  | none => (none, none)
  | some l =>
    (some (l.takeWhile (fun c => !(c == '\t'))),
     match l.dropWhile (fun c => !(c == '\t')) with
     | [] => none
     | _ :: t => some t)

/-- menuaddline (goph.c:551-599): reject an empty line, take the first
character as the item type, split the rest into name, selector, host and
port fields on tabs (missing field: error), parse the port with
strtonum(portstr, 0, SHRT_MAX) (bad port: error), and append the Item.
Returns the new menu and the error flag (the C return value). -/
def menuaddline (m : List Item) (line : List Char) : List Item × Bool :=
  match line with
  | [] => (m, true)
  | type :: rest =>
    match strsepTab (some rest) with
    | (some name, r1) =>
      match strsepTab r1 with
      | (some sel, r2) =>
        match strsepTab r2 with
        | (some host, r3) =>
          match strsepTab r3 with
          | (some portstr, _) =>
            match strtonum portstr 0 32767 with
            | some port => (m ++ [⟨type, name, sel, host, port⟩], false)
            | none => (m, true)
          | (none, _) => (m, true)
        | (none, _) => (m, true)
      | (none, _) => (m, true)
    | (none, _) => (m, true)

/-- menuaddtextline (goph.c:601-606): append the raw line as an
informational item with the null/null/0 sentinel; never fails. -/
def menuaddtextline (m : List Item) (line : List Char) : List Item × Bool :=
  (m ++ [⟨'i', line, "null".toList, "null".toList, 0⟩], false)

/-- Replay of the line-handler calls recvcontent makes: the menu after the
handler has been fed the given lines in order (return values are ignored by
recvcontent, as in the C loop). -/
def runHandler (h : List Item → List Char → List Item × Bool)
    (m : List Item) (ls : List (List Char)) : List Item :=
  ls.foldl (fun acc l => (h acc l).1) m

/-! ### recvcontent (goph.c:478-514) -/

/-- Outcome of scanning one received chunk: the pending line buffer, the
lines handed to the line handler, the number of too-long-line warnings, and
whether the "." terminator ended the response. -/
structure ChunkOut where
  buf : List Char
  lines : List (List Char)
  warns : Nat
  term : Bool
deriving DecidableEq

/-- Byte scan of one chunk of recvcontent (goph.c:486-502), starting from
the pending line buffer. A CR or LF completes the line: a line equal to "."
ends the response (the rest of the chunk is discarded); otherwise the line
goes to the handler, and an LF directly after a CR inside the same chunk is
consumed with it. Other bytes are appended while the 512 byte line buffer
has room (linelen < 511); once full, a warning is counted, the buffer
resets, and the byte is dropped. -/
def procChunk : List Char → List Char → ChunkOut
  | buf, [] => ⟨buf, [], 0, false⟩
  | buf, '\r' :: '\n' :: rest =>
    if buf = ['.'] then ⟨[], [], 0, true⟩
    else
      let o := procChunk [] rest
      ⟨o.buf, buf :: o.lines, o.warns, o.term⟩
  | buf, '\r' :: rest =>
    if buf = ['.'] then ⟨[], [], 0, true⟩
    else
      let o := procChunk [] rest
      ⟨o.buf, buf :: o.lines, o.warns, o.term⟩
  | buf, '\n' :: rest =>
    if buf = ['.'] then ⟨[], [], 0, true⟩
    else
      let o := procChunk [] rest
      ⟨o.buf, buf :: o.lines, o.warns, o.term⟩
  | buf, c :: rest =>
    if buf.length < 511 then procChunk (buf ++ [c]) rest
    else
      let o := procChunk [] rest
      ⟨o.buf, o.lines, o.warns + 1, o.term⟩

/-- Buffer accumulation of procChunk on terminator-free input: the final
pending buffer and the number of too-long-line warnings. -/
def burst : List Char → List Char → List Char × Nat
  | buf, [] => (buf, 0)
  | buf, c :: t =>
    if buf.length < 511 then burst (buf ++ [c]) t
    else
      let r := burst [] t
      (r.1, r.2 + 1)

/-- Result of a whole recvcontent run: handler lines, warning count, and
whether the "." terminator was seen. -/
structure RecvOut where
  lines : List (List Char)
  warns : Nat
  term : Bool
deriving DecidableEq

/-- The recv loop of recvcontent over a list of successful reads followed
by end of stream: each chunk is scanned with procChunk; the terminator
stops the loop, and at end of stream a nonempty pending line is flushed to
the handler (goph.c:504-513). -/
def recvGo : List Char → List (List Char) → RecvOut
  | buf, [] => ⟨if buf = [] then [] else [buf], 0, false⟩
  | buf, ch :: rest =>
    let o := procChunk buf ch
    if o.term then ⟨o.lines, o.warns, true⟩
    else
      let r := recvGo o.buf rest
      ⟨o.lines ++ r.lines, o.warns + r.warns, r.term⟩

/-- recvcontent (goph.c:478-514) on a scripted sequence of reads. -/
def recvcontent (chunks : List (List Char)) : RecvOut := recvGo [] chunks

/-! ### History: menutrunc (goph.c:614-628), menuadd (goph.c:532-549),
back (goph.c:138-155) and the history block of navigate (goph.c:410-414) -/

/-- menutrunc (goph.c:614-628): drop the items at index >= n and clamp the
cursor to the last remaining index (0 when the menu becomes empty). Both C
call sites pass n <= len, so List.take models the length assignment. -/
def menutrunc (m : Menu) (n : Nat) : Menu :=
  let items := m.items.take n
  ⟨items,
   if items.length ≤ m.pos then (if items.length = 0 then 0 else items.length - 1)
   else m.pos⟩

/-- menuadd (goph.c:532-549): append one item; the cursor is untouched. -/
def menuadd (m : Menu) (i : Item) : Menu := ⟨m.items ++ [i], m.pos⟩

/-- History update of navigate (goph.c:410-414): when addhist is set,
truncate the history at the cursor, append the new entry and advance the
cursor; otherwise leave the history alone. -/
def navHist (h : Menu) (addhist : Bool) (i : Item) : Menu :=
  if addhist then
    let h1 := menutrunc h h.pos
    let h2 := menuadd h1 i
    ⟨h2.items, h2.pos + 1⟩
  else h

/-- recordVisit of the spec: navigate with addhist = 1. -/
def recordVisit (h : Menu) (i : Item) : Menu := navHist h true i

/-- back (goph.c:138-155). For a.d >= 0 the motion is refused when
hist.pos < a.d or the target index reaches hist.len; for a.d < 0 the C code
computes hist.pos - a.d in size_t arithmetic, i.e. hist.pos + |a.d|, and
refuses when that reaches hist.len. On success the cursor moves and the
item at the new cursor is replayed. Returns the updated history and the
item handed to navigate (none when refused). -/
def back (h : Menu) (d : Int) : Menu × Option Item :=
  if 0 ≤ d then
    if h.pos < d.toNat ∨ h.items.length ≤ h.pos - d.toNat then (h, none)
    else (⟨h.items, h.pos - d.toNat⟩, h.items[h.pos - d.toNat]?)
  else
    if h.items.length ≤ h.pos + (-d).toNat then (h, none)
    else (⟨h.items, h.pos + (-d).toNat⟩, h.items[h.pos + (-d).toNat]?)

/-- back followed by the replay navigate(i.type, i.sel, i.host, i.port, 0):
the whole effect of the back action on the history. -/
def goBackStep (h : Menu) (d : Int) : Menu :=
  match back h d with
  | (h1, some i) => navHist h1 false i
  | (h1, none) => h1

/-! ### Helper lemmas: takeWhile and dropWhile over known spans -/

theorem takeWhile_all (p : Char → Bool) (l : List Char) (h : ∀ a ∈ l, p a = true) :
    l.takeWhile p = l := by
  induction l with
  | nil => rfl
  | cons c t ih =>
    rw [List.takeWhile_cons_of_pos (h c (by simp))]
    rw [ih (fun a ha => h a (by simp [ha]))]

theorem dropWhile_all (p : Char → Bool) (l : List Char) (h : ∀ a ∈ l, p a = true) :
    l.dropWhile p = [] := by
  induction l with
  | nil => rfl
  | cons c t ih =>
    rw [List.dropWhile_cons, if_pos (h c (by simp)), ih (fun a ha => h a (by simp [ha]))]

theorem takeWhile_append_stop (p : Char → Bool) (xs : List Char) (c : Char) (ys : List Char)
    (hx : ∀ a ∈ xs, p a = true) (hc : p c = false) :
    (xs ++ c :: ys).takeWhile p = xs := by
  induction xs with
  | nil => simp [List.takeWhile_cons, hc]
  | cons a t ih =>
    rw [List.cons_append, List.takeWhile_cons_of_pos (hx a (by simp))]
    rw [ih (fun b hb => hx b (by simp [hb]))]

theorem dropWhile_append_stop (p : Char → Bool) (xs : List Char) (c : Char) (ys : List Char)
    (hx : ∀ a ∈ xs, p a = true) (hc : p c = false) :
    (xs ++ c :: ys).dropWhile p = c :: ys := by
  induction xs with
  | nil => simp [List.dropWhile_cons, hc]
  | cons a t ih =>
    rw [List.cons_append, List.dropWhile_cons, if_pos (hx a (by simp))]
    exact ih (fun b hb => hx b (by simp [hb]))

/-- A value in the takeWhile prefix satisfies the predicate. -/
theorem mem_takeWhile_sat (p : Char → Bool) (l : List Char) :
    ∀ a ∈ l.takeWhile p, p a = true := by
  induction l with
  | nil => simp
  | cons c t ih =>
    rw [List.takeWhile_cons]
    by_cases hc : p c
    · rw [if_pos hc]
      intro a ha
      rcases List.mem_cons.mp ha with h | h
      · exact h ▸ hc
      · exact ih a h
    · rw [if_neg hc]
      simp

/-! ### Helper lemmas: decimal digits -/

theorem digitChar_mem (d : Nat) (h : d < 10) : digitChar d ∈ digitChars := by
  interval_cases d <;> decide

theorem digitVal_digitChar (d : Nat) (h : d < 10) : digitVal (digitChar d) = d := by
  interval_cases d <;> decide

theorem digitsVal_append (xs : List Char) (c : Char) :
    digitsVal (xs ++ [c]) = 10 * digitsVal xs + digitVal c := by
  unfold digitsVal
  rw [List.foldl_append]
  rfl

/-- Character class facts about the ten digit characters, checked by
evaluation. -/
theorem digitChars_class : ∀ c ∈ digitChars,
    isspaceC c = false ∧ c ≠ '+' ∧ c ≠ '-' ∧ Char.isDigit c = true ∧
    notSlash c = true ∧ (!(c == '\t')) = true ∧ notHostEnd c = true ∧
    c ≠ '\r' ∧ c ≠ '\n' ∧ c ≠ '/' := by
  decide

theorem natDigitsAux_spec (fuel : Nat) : ∀ n : Nat, n < fuel →
    digitsVal (natDigitsAux fuel n) = n ∧
    natDigitsAux fuel n ≠ [] ∧
    ∀ c ∈ natDigitsAux fuel n, c ∈ digitChars := by
  induction fuel with
  | zero => intro n h; omega
  | succ f ih =>
    intro n h
    by_cases h10 : n < 10
    · have heq : natDigitsAux (f + 1) n = [digitChar n] := by simp [natDigitsAux, h10]
      refine ⟨?_, by simp [heq], ?_⟩
      · rw [heq, show digitsVal [digitChar n] = digitVal (digitChar n) by
          simp [digitsVal, List.foldl]]
        exact digitVal_digitChar n h10
      · intro c hc
        rw [heq] at hc
        rcases List.mem_singleton.mp hc with rfl
        exact digitChar_mem n h10
    · have hdiv : n / 10 < f := by omega
      obtain ⟨ih1, ih2, ih3⟩ := ih (n / 10) hdiv
      have heq : natDigitsAux (f + 1) n = natDigitsAux f (n / 10) ++ [digitChar (n % 10)] := by
        simp [natDigitsAux, h10]
      refine ⟨?_, by simp [heq], ?_⟩
      · rw [heq, digitsVal_append, ih1, digitVal_digitChar (n % 10) (by omega)]
        omega
      · intro c hc
        rw [heq] at hc
        rcases List.mem_append.mp hc with h1 | h1
        · exact ih3 c h1
        · rcases List.mem_singleton.mp h1 with rfl
          exact digitChar_mem (n % 10) (by omega)

theorem natDigits_val (n : Nat) : digitsVal (natDigits n) = n :=
  (natDigitsAux_spec (n + 1) n (by omega)).1

theorem natDigits_ne_nil (n : Nat) : natDigits n ≠ [] :=
  (natDigitsAux_spec (n + 1) n (by omega)).2.1

theorem natDigits_mem (n : Nat) : ∀ c ∈ natDigits n, c ∈ digitChars :=
  (natDigitsAux_spec (n + 1) n (by omega)).2.2

/-! ### Helper lemmas: strtonum -/

/-- strtonum on a nonempty all-digit string succeeds exactly when the value
is within the bound. -/
theorem strtonum_digits (ds : List Char) (h1 : ds ≠ []) (h2 : ∀ c ∈ ds, c ∈ digitChars) :
    strtonum ds 0 32767 =
      if (digitsVal ds : Int) ≤ 32767 then some ((digitsVal ds : Int)) else none := by
  obtain ⟨c, t, rfl⟩ := List.exists_cons_of_ne_nil h1
  have hc := digitChars_class c (h2 c (by simp))
  have hall : ∀ a ∈ c :: t, Char.isDigit a = true :=
    fun a ha => (digitChars_class a (h2 a ha)).2.2.2.1
  have hdrop : (c :: t).dropWhile isspaceC = c :: t := by
    rw [List.dropWhile_cons, if_neg (by simp [hc.1])]
  simp only [strtonum, hdrop, List.head?_cons]
  rw [show (if some c = some '-' then (-1 : Int) else 1) = 1 from
        if_neg (by simp [hc.2.2.1]),
      show (if some c = some '-' ∨ some c = some '+' then (c :: t).tail else c :: t) = c :: t from
        if_neg (by simp [hc.2.1, hc.2.2.1])]
  rw [takeWhile_all _ _ hall, dropWhile_all _ _ hall]
  rw [if_neg (by simp), one_mul]
  by_cases hv : (digitsVal (c :: t) : Int) ≤ 32767
  · rw [if_neg (by omega), if_pos hv]
  · rw [if_pos (by omega), if_neg hv]

/-- strtonum fails whenever the string contains a character that is not a
space, a sign or a digit. -/
theorem strtonum_badchar (s : List Char) (c : Char) (hmem : c ∈ s)
    (hsp : isspaceC c = false) (hplus : c ≠ '+') (hminus : c ≠ '-')
    (hdig : Char.isDigit c = false) :
    strtonum s 0 32767 = none := by
  simp only [strtonum]
  by_cases hcond :
      (if (s.dropWhile isspaceC).head? = some '-' ∨ (s.dropWhile isspaceC).head? = some '+'
       then (s.dropWhile isspaceC).tail else s.dropWhile isspaceC).takeWhile Char.isDigit = [] ∨
      (if (s.dropWhile isspaceC).head? = some '-' ∨ (s.dropWhile isspaceC).head? = some '+'
       then (s.dropWhile isspaceC).tail else s.dropWhile isspaceC).dropWhile Char.isDigit ≠ []
  · rw [if_pos hcond]
  · exfalso
    push_neg at hcond
    obtain ⟨hds, hrest⟩ := hcond
    have hcs : c ∈ s.takeWhile isspaceC ∨ c ∈ s.dropWhile isspaceC := by
      rw [← List.mem_append, List.takeWhile_append_dropWhile]
      exact hmem
    rcases hcs with h1 | h1
    · exact absurd (mem_takeWhile_sat isspaceC s c h1) (by simp [hsp])
    rcases hE : s.dropWhile isspaceC with _ | ⟨hd, t1⟩
    · rw [hE] at h1
      exact List.not_mem_nil c h1
    rw [hE] at h1 hrest
    by_cases hsgn : hd = '-' ∨ hd = '+'
    · rw [show (if (hd :: t1 : List Char).head? = some '-' ∨
            (hd :: t1 : List Char).head? = some '+'
          then (hd :: t1 : List Char).tail else hd :: t1) = t1 by
        rw [if_pos (show _ ∨ _ by
          simp only [List.head?_cons, Option.some.injEq]
          exact hsgn)]
        rfl] at hrest
      have hall : ∀ a ∈ t1, Char.isDigit a = true := by
        intro a ha
        have hta := List.takeWhile_append_dropWhile Char.isDigit t1
        rw [hrest, List.append_nil] at hta
        rw [← hta] at ha
        exact mem_takeWhile_sat _ _ a ha
      rcases List.mem_cons.mp h1 with rfl | h3
      · rcases hsgn with rfl | rfl
        · exact hminus rfl
        · exact hplus rfl
      · exact absurd (hall c h3) (by simp [hdig])
    · rw [show (if (hd :: t1 : List Char).head? = some '-' ∨
            (hd :: t1 : List Char).head? = some '+'
          then (hd :: t1 : List Char).tail else hd :: t1) = hd :: t1 from
        if_neg (by
          simp only [List.head?_cons, Option.some.injEq]
          exact hsgn)] at hrest
      have hall : ∀ a ∈ hd :: t1, Char.isDigit a = true := by
        intro a ha
        have hta := List.takeWhile_append_dropWhile Char.isDigit (hd :: t1)
        rw [hrest, List.append_nil] at hta
        rw [← hta] at ha
        exact mem_takeWhile_sat _ _ a ha
      exact absurd (hall c h1) (by simp [hdig])

theorem isDigit_not_space (c : Char) (h : c.isDigit = true) : isspaceC c = false := by
  cases hE : isspaceC c
  · rfl
  · simp only [isspaceC, Bool.or_eq_true, beq_iff_eq] at hE
    rcases hE with ((((rfl | rfl) | rfl) | rfl) | rfl) | rfl <;> exact absurd h (by decide)

theorem isDigit_ne_plus (c : Char) (h : c.isDigit = true) : c ≠ '+' := by
  intro hEq
  rw [hEq] at h
  exact absurd h (by decide)

theorem isDigit_ne_minus (c : Char) (h : c.isDigit = true) : c ≠ '-' := by
  intro hEq
  rw [hEq] at h
  exact absurd h (by decide)

/-- Full characterization of the strtonum model against the claim-side
numeric predicate: strtonum(ps, 0, 32767) returns v exactly when the field
denotes v and v lies in [0, 32767]. -/
theorem strtonum_some_iff (ps : List Char) (v : Int) :
    strtonum ps 0 32767 = some v ↔ (portNumeric ps v ∧ 0 ≤ v ∧ v ≤ 32767) := by
  constructor
  · intro h
    have hsplit := List.takeWhile_append_dropWhile isspaceC ps
    have hws : ∀ c ∈ ps.takeWhile isspaceC, isspaceC c = true := mem_takeWhile_sat _ _
    rcases hE : ps.dropWhile isspaceC with _ | ⟨hd, t1⟩
    · exfalso
      rw [show strtonum ps 0 32767 = none by simp [strtonum, hE]] at h
      exact Option.noConfusion h
    · rw [hE] at hsplit
      by_cases hminus : hd = '-'
      · subst hminus
        have hsgnif : (if ('-' :: t1 : List Char).head? = some '-' then (-1 : Int) else 1) =
            -1 := if_pos rfl
        have hl2 : (if ('-' :: t1 : List Char).head? = some '-' ∨
              ('-' :: t1 : List Char).head? = some '+'
            then ('-' :: t1 : List Char).tail else '-' :: t1) = t1 := if_pos (Or.inl rfl)
        simp only [strtonum, hE, hsgnif, hl2] at h
        split at h
        · exact Option.noConfusion h
        · rename_i hguard
          push_neg at hguard
          obtain ⟨hds, hrest⟩ := hguard
          split at h
          · exact Option.noConfusion h
          · rename_i hrange
            push_neg at hrange
            have hv := Option.some.inj h
            have ht1 : t1.takeWhile Char.isDigit = t1 := by
              have hta := List.takeWhile_append_dropWhile Char.isDigit t1
              rw [hrest, List.append_nil] at hta
              exact hta
            have hdigits : ∀ a ∈ t1, Char.isDigit a = true := by
              intro a ha
              rw [← ht1] at ha
              exact mem_takeWhile_sat _ _ a ha
            rw [ht1] at hv hrange
            refine ⟨⟨ps.takeWhile isspaceC, ['-'], t1, hws, Or.inr (Or.inr rfl),
              ht1 ▸ hds, hdigits, ?_, ?_⟩, ?_, ?_⟩
            · rw [List.append_assoc]
              exact hsplit.symm
            · rw [← hv]
              simp
            · omega
            · omega
      · by_cases hplus : hd = '+'
        · subst hplus
          have hsgnif : (if ('+' :: t1 : List Char).head? = some '-' then (-1 : Int) else 1) =
              1 := if_neg (by simp)
          have hl2 : (if ('+' :: t1 : List Char).head? = some '-' ∨
                ('+' :: t1 : List Char).head? = some '+'
              then ('+' :: t1 : List Char).tail else '+' :: t1) = t1 := if_pos (Or.inr rfl)
          simp only [strtonum, hE, hsgnif, hl2] at h
          split at h
          · exact Option.noConfusion h
          · rename_i hguard
            push_neg at hguard
            obtain ⟨hds, hrest⟩ := hguard
            split at h
            · exact Option.noConfusion h
            · rename_i hrange
              push_neg at hrange
              have hv := Option.some.inj h
              have ht1 : t1.takeWhile Char.isDigit = t1 := by
                have hta := List.takeWhile_append_dropWhile Char.isDigit t1
                rw [hrest, List.append_nil] at hta
                exact hta
              have hdigits : ∀ a ∈ t1, Char.isDigit a = true := by
                intro a ha
                rw [← ht1] at ha
                exact mem_takeWhile_sat _ _ a ha
              rw [ht1] at hv hrange
              refine ⟨⟨ps.takeWhile isspaceC, ['+'], t1, hws, Or.inr (Or.inl rfl),
                ht1 ▸ hds, hdigits, ?_, ?_⟩, ?_, ?_⟩
              · rw [List.append_assoc]
                exact hsplit.symm
              · rw [← hv]
                simp
              · omega
              · omega
        · have hsgnif : (if (hd :: t1 : List Char).head? = some '-' then (-1 : Int) else 1) =
              1 := if_neg (by simp only [List.head?_cons, Option.some.injEq]; exact hminus)
          have hl2 : (if (hd :: t1 : List Char).head? = some '-' ∨
                (hd :: t1 : List Char).head? = some '+'
              then (hd :: t1 : List Char).tail else hd :: t1) = hd :: t1 := by
            rw [if_neg]
            simp only [List.head?_cons, Option.some.injEq]
            tauto
          simp only [strtonum, hE, hsgnif, hl2] at h
          split at h
          · exact Option.noConfusion h
          · rename_i hguard
            push_neg at hguard
            obtain ⟨hds, hrest⟩ := hguard
            split at h
            · exact Option.noConfusion h
            · rename_i hrange
              push_neg at hrange
              have hv := Option.some.inj h
              have ht1 : (hd :: t1).takeWhile Char.isDigit = hd :: t1 := by
                have hta := List.takeWhile_append_dropWhile Char.isDigit (hd :: t1)
                rw [hrest, List.append_nil] at hta
                exact hta
              have hdigits : ∀ a ∈ hd :: t1, Char.isDigit a = true := by
                intro a ha
                rw [← ht1] at ha
                exact mem_takeWhile_sat _ _ a ha
              rw [ht1] at hv hrange
              refine ⟨⟨ps.takeWhile isspaceC, [], hd :: t1, hws, Or.inl rfl,
                by simp, hdigits, ?_, ?_⟩, ?_, ?_⟩
              · rw [List.append_assoc]
                exact hsplit.symm
              · rw [← hv]
                simp
              · omega
              · omega
  · rintro ⟨⟨ws, sgn, ds, hws, hsgn, hdne, hdig, hsplit, hval⟩, hge, hle⟩
    subst hsplit
    obtain ⟨d0, ds', rfl⟩ := List.exists_cons_of_ne_nil hdne
    have hd0 := hdig d0 (by simp)
    rcases hsgn with rfl | rfl | rfl
    · rw [show ws ++ [] ++ (d0 :: ds') = ws ++ d0 :: ds' by simp]
      have hdw : (ws ++ d0 :: ds').dropWhile isspaceC = d0 :: ds' :=
        dropWhile_append_stop _ ws d0 ds' hws (isDigit_not_space d0 hd0)
      have hv2 : v = (digitsVal (d0 :: ds') : Int) := by simpa using hval
      simp only [strtonum, hdw]
      rw [show (if (d0 :: ds' : List Char).head? = some '-' then (-1 : Int) else 1) = 1 from
            if_neg (by simp [isDigit_ne_minus d0 hd0]),
          show (if (d0 :: ds' : List Char).head? = some '-' ∨
                (d0 :: ds' : List Char).head? = some '+'
              then (d0 :: ds' : List Char).tail else d0 :: ds') = d0 :: ds' from
            if_neg (by simp [isDigit_ne_minus d0 hd0, isDigit_ne_plus d0 hd0])]
      rw [takeWhile_all _ _ hdig, dropWhile_all _ _ hdig]
      rw [if_neg (by simp), if_neg (by omega)]
      rw [one_mul, ← hv2]
    · rw [show ws ++ ['+'] ++ (d0 :: ds') = ws ++ '+' :: (d0 :: ds') by simp]
      have hdw : (ws ++ '+' :: (d0 :: ds')).dropWhile isspaceC = '+' :: (d0 :: ds') :=
        dropWhile_append_stop _ ws '+' (d0 :: ds') hws (by decide)
      have hv2 : v = (digitsVal (d0 :: ds') : Int) := by simpa using hval
      simp only [strtonum, hdw]
      rw [show (if ('+' :: (d0 :: ds') : List Char).head? = some '-' then (-1 : Int) else 1) =
            1 from if_neg (by simp),
          show (if ('+' :: (d0 :: ds') : List Char).head? = some '-' ∨
                ('+' :: (d0 :: ds') : List Char).head? = some '+'
              then ('+' :: (d0 :: ds') : List Char).tail else '+' :: (d0 :: ds')) =
            d0 :: ds' from if_pos (Or.inr rfl)]
      rw [takeWhile_all _ _ hdig, dropWhile_all _ _ hdig]
      rw [if_neg (by simp), if_neg (by omega)]
      rw [one_mul, ← hv2]
    · rw [show ws ++ ['-'] ++ (d0 :: ds') = ws ++ '-' :: (d0 :: ds') by simp]
      have hdw : (ws ++ '-' :: (d0 :: ds')).dropWhile isspaceC = '-' :: (d0 :: ds') :=
        dropWhile_append_stop _ ws '-' (d0 :: ds') hws (by decide)
      have hv2 : v = -1 * (digitsVal (d0 :: ds') : Int) := by simpa using hval
      simp only [strtonum, hdw]
      rw [show (if ('-' :: (d0 :: ds') : List Char).head? = some '-' then (-1 : Int) else 1) =
            -1 from if_pos rfl,
          show (if ('-' :: (d0 :: ds') : List Char).head? = some '-' ∨
                ('-' :: (d0 :: ds') : List Char).head? = some '+'
              then ('-' :: (d0 :: ds') : List Char).tail else '-' :: (d0 :: ds')) =
            d0 :: ds' from if_pos (Or.inl rfl)]
      rw [takeWhile_all _ _ hdig, dropWhile_all _ _ hdig]
      rw [if_neg (by simp), if_neg (by omega)]
      rw [← hv2]

/-- strtonum(ps, 0, 32767) fails exactly when the field denotes no value in
[0, 32767]: it is non-numeric or out of range on either side. -/
theorem strtonum_none_iff (ps : List Char) :
    strtonum ps 0 32767 = none ↔
      ¬∃ v : Int, portNumeric ps v ∧ 0 ≤ v ∧ v ≤ 32767 := by
  constructor
  · rintro h ⟨v, hv⟩
    have hsome := (strtonum_some_iff ps v).mpr hv
    rw [h] at hsome
    exact Option.noConfusion hsome
  · intro h
    rcases he : strtonum ps 0 32767 with _ | v
    · rfl
    · exact absurd ⟨v, (strtonum_some_iff ps v).mp he⟩ h

/-! ### Helper lemmas: the scheme prefix never matches the location shapes
used in the general theorems -/

theorem scheme_take_ne_slash (host rest : List Char)
    (hh : ∀ a ∈ host, notHostEnd a = true) :
    (host ++ '/' :: rest).take 9 ≠ schemeChars := by
  intro heq
  have hget : ∀ i : Nat, i < 9 → (host ++ '/' :: rest)[i]? = schemeChars[i]? := by
    intro i hi
    rw [← @List.getElem?_take_of_lt Char (host ++ '/' :: rest) 9 i hi, heq]
  have h6 : 6 < host.length → False := by
    intro h6lt
    have hh6 : (host ++ '/' :: rest)[6]? = host[6]? := List.getElem?_append_left (by omega)
    have h2 := hget 6 (by omega)
    rw [hh6] at h2
    have hmem : (':' : Char) ∈ host := List.getElem?_mem (by rw [h2]; decide)
    have := hh ':' hmem
    simp [notHostEnd] at this
  rcases Nat.lt_or_ge host.length 9 with hlen | hlen
  · have hsep : (host ++ '/' :: rest)[host.length]? = some '/' := by
      rw [List.getElem?_append_right (Nat.le_refl _)]
      simp
    have h1 := hget host.length hlen
    rw [hsep] at h1
    have hcase : host.length = 0 ∨ host.length = 1 ∨ host.length = 2 ∨ host.length = 3 ∨
        host.length = 4 ∨ host.length = 5 ∨ host.length = 6 ∨ host.length = 7 ∨
        host.length = 8 := by omega
    rcases hcase with h | h | h | h | h | h | h | h | h
    · rw [h] at h1; exact absurd h1 (by decide)
    · rw [h] at h1; exact absurd h1 (by decide)
    · rw [h] at h1; exact absurd h1 (by decide)
    · rw [h] at h1; exact absurd h1 (by decide)
    · rw [h] at h1; exact absurd h1 (by decide)
    · rw [h] at h1; exact absurd h1 (by decide)
    · rw [h] at h1; exact absurd h1 (by decide)
    · exact h6 (by omega)
    · exact h6 (by omega)
  · exact h6 (by omega)

theorem scheme_take_ne_colon (host ps : List Char) (T : Char) (sel : List Char)
    (hh : ∀ a ∈ host, notHostEnd a = true)
    (hps : ∀ a ∈ ps, notSlash a = true)
    (hexc : ¬(host = "gopher".toList ∧ ps = [] ∧ T = '/')) :
    (host ++ ':' :: (ps ++ '/' :: T :: sel)).take 9 ≠ schemeChars := by
  intro heq
  have hget : ∀ i : Nat, i < 9 →
      (host ++ ':' :: (ps ++ '/' :: T :: sel))[i]? = schemeChars[i]? := by
    intro i hi
    rw [← @List.getElem?_take_of_lt Char (host ++ ':' :: (ps ++ '/' :: T :: sel)) 9 i hi, heq]
  have h6 : 6 < host.length → False := by
    intro h6lt
    have hh6 : (host ++ ':' :: (ps ++ '/' :: T :: sel))[6]? = host[6]? :=
      List.getElem?_append_left (by omega)
    have h2 := hget 6 (by omega)
    rw [hh6] at h2
    have hmem : (':' : Char) ∈ host := List.getElem?_mem (by rw [h2]; decide)
    have := hh ':' hmem
    simp [notHostEnd] at this
  rcases Nat.lt_or_ge host.length 9 with hlen | hlen
  · have hsep : (host ++ ':' :: (ps ++ '/' :: T :: sel))[host.length]? = some ':' := by
      rw [List.getElem?_append_right (Nat.le_refl _)]
      simp
    have h1 := hget host.length hlen
    rw [hsep] at h1
    have h6eq : host.length = 6 := by
      have hcase : host.length = 0 ∨ host.length = 1 ∨ host.length = 2 ∨ host.length = 3 ∨
          host.length = 4 ∨ host.length = 5 ∨ host.length = 6 ∨ host.length = 7 ∨
          host.length = 8 := by omega
      rcases hcase with h | h | h | h | h | h | h | h | h
      · rw [h] at h1; exact absurd h1 (by decide)
      · rw [h] at h1; exact absurd h1 (by decide)
      · rw [h] at h1; exact absurd h1 (by decide)
      · rw [h] at h1; exact absurd h1 (by decide)
      · rw [h] at h1; exact absurd h1 (by decide)
      · rw [h] at h1; exact absurd h1 (by decide)
      · exact h
      · rw [h] at h1; exact absurd h1 (by decide)
      · rw [h] at h1; exact absurd h1 (by decide)
    rcases hE : ps with _ | ⟨p0, pt⟩
    · subst hE
      have hT : T = '/' := by
        have h8 := hget 8 (by omega)
        rw [List.getElem?_append_right (by omega), h6eq,
            show schemeChars[8]? = some '/' by decide] at h8
        simp at h8
        exact h8
      have hhost : host = "gopher".toList := by
        apply List.ext_getElem?
        intro i
        by_cases hi : i < 6
        · have hgi := hget i (by omega)
          rw [List.getElem?_append_left (by omega)] at hgi
          rw [hgi]
          interval_cases i <;> rfl
        · rw [List.getElem?_eq_none (by omega),
              List.getElem?_eq_none (show ("gopher".toList).length ≤ i by
                rw [show ("gopher".toList).length = 6 from rfl]; omega)]
      exact hexc ⟨hhost, rfl, hT⟩
    · subst hE
      have hidx7 : (host ++ ':' :: ((p0 :: pt) ++ '/' :: T :: sel))[7]? = some p0 := by
        rw [List.getElem?_append_right (by omega), h6eq]
        simp
      have h2 := hget 7 (by omega)
      rw [hidx7] at h2
      have hp0 : p0 = '/' := by
        rw [show schemeChars[7]? = some '/' by decide] at h2
        exact Option.some.inj h2
      have := hps p0 (by simp)
      rw [hp0] at this
      simp [notSlash] at this
  · exact h6 (by omega)

/-! ### Helper lemmas: parseurl on the two location shapes -/

theorem parseurl_noport (host : List Char) (T : Char) (sel : List Char)
    (hh : ∀ a ∈ host, notHostEnd a = true) :
    parseurl (host ++ '/' :: T :: sel) = some ⟨'/', T :: sel, host, 70⟩ := by
  simp only [parseurl]
  rw [if_neg (scheme_take_ne_slash host (T :: sel) hh)]
  rw [takeWhile_append_stop notHostEnd host '/' (T :: sel) hh (by decide),
      dropWhile_append_stop notHostEnd host '/' (T :: sel) hh (by decide)]
  rw [if_neg (by simp)]
  rfl

theorem parseurl_port (host ps : List Char) (T : Char) (sel : List Char)
    (hh : ∀ a ∈ host, notHostEnd a = true)
    (hps : ∀ a ∈ ps, notSlash a = true)
    (hexc : ¬(host = "gopher".toList ∧ ps = [] ∧ T = '/')) :
    parseurl (host ++ ':' :: (ps ++ '/' :: T :: sel)) =
      (match strtonum ps 0 32767 with
       | none => none
       | some p => some ⟨'/', T :: sel, host, p⟩) := by
  simp only [parseurl]
  rw [if_neg (scheme_take_ne_colon host ps T sel hh hps hexc)]
  rw [takeWhile_append_stop notHostEnd host ':' (ps ++ '/' :: T :: sel) hh (by decide),
      dropWhile_append_stop notHostEnd host ':' (ps ++ '/' :: T :: sel) hh (by decide)]
  rw [if_pos (show (':' :: (ps ++ '/' :: T :: sel)).head? = some ':' from rfl)]
  simp only [List.tail_cons]
  rw [takeWhile_append_stop notSlash ps '/' (T :: sel) hps (by decide),
      dropWhile_append_stop notSlash ps '/' (T :: sel) hps (by decide)]
  cases hs : strtonum ps 0 32767 with
  | none => rfl
  | some p => rfl

/-! ### Helper lemmas: strsep field splitting -/

theorem strsepTab_split (x tl : List Char) (hx : ∀ a ∈ x, (!(a == '\t')) = true) :
    strsepTab (some (x ++ '\t' :: tl)) = (some x, some tl) := by
  simp only [strsepTab]
  rw [takeWhile_append_stop _ x '\t' tl hx (by decide),
      dropWhile_append_stop _ x '\t' tl hx (by decide)]

theorem strsepTab_last (x : List Char) (hx : ∀ a ∈ x, (!(a == '\t')) = true) :
    strsepTab (some x) = (some x, none) := by
  simp only [strsepTab]
  rw [takeWhile_all _ x hx, dropWhile_all _ x hx]

theorem menuaddline_fields (m : List Item) (T : Char) (nm sl hs ps : List Char)
    (hnm : ∀ a ∈ nm, (!(a == '\t')) = true)
    (hsl : ∀ a ∈ sl, (!(a == '\t')) = true)
    (hhs : ∀ a ∈ hs, (!(a == '\t')) = true)
    (hps : ∀ a ∈ ps, (!(a == '\t')) = true) :
    menuaddline m (T :: (nm ++ '\t' :: (sl ++ '\t' :: (hs ++ '\t' :: ps)))) =
      (match strtonum ps 0 32767 with
       | some p => (m ++ [⟨T, nm, sl, hs, p⟩], false)
       | none => (m, true)) := by
  simp only [menuaddline,
    strsepTab_split nm (sl ++ '\t' :: (hs ++ '\t' :: ps)) hnm,
    strsepTab_split sl (hs ++ '\t' :: ps) hsl,
    strsepTab_split hs ps hhs,
    strsepTab_last ps hps]

/-! ### Helper lemmas: the receive loop on terminator-free spans -/

theorem procChunk_newline (buf rest : List Char) :
    procChunk buf ('\n' :: rest) =
      if buf = ['.'] then ⟨[], [], 0, true⟩
      else
        ⟨(procChunk [] rest).buf, buf :: (procChunk [] rest).lines,
         (procChunk [] rest).warns, (procChunk [] rest).term⟩ := rfl

theorem procChunk_other (buf : List Char) (c : Char) (rest : List Char)
    (h1 : c ≠ '\r') (h2 : c ≠ '\n') :
    procChunk buf (c :: rest) =
      if buf.length < 511 then procChunk (buf ++ [c]) rest
      else ⟨(procChunk [] rest).buf, (procChunk [] rest).lines,
            (procChunk [] rest).warns + 1, (procChunk [] rest).term⟩ := by
  rw [procChunk.eq_def]
  split
  · rename_i heq
    exact absurd heq (by simp)
  · rename_i heq
    exfalso
    injection heq with hc hr
    exact h1 hc
  · rename_i heq
    exfalso
    injection heq with hc hr
    exact h1 hc
  · rename_i heq
    exfalso
    injection heq with hc hr
    exact h2 hc
  · rename_i heq
    injection heq with hc hr
    subst hc
    subst hr
    rfl

theorem burst_small (pre : List Char) :
    ∀ buf : List Char, buf.length + pre.length ≤ 511 → burst buf pre = (buf ++ pre, 0) := by
  induction pre with
  | nil => intro buf h; simp [burst]
  | cons c t ih =>
    intro buf h
    have hlen : buf.length < 511 := by simp at h; omega
    rw [show burst buf (c :: t) = burst (buf ++ [c]) t by simp [burst, hlen]]
    rw [ih (buf ++ [c]) (by simp at h ⊢; omega)]
    simp

theorem burst_warns (pre : List Char) :
    ∀ buf : List Char, buf.length ≤ 511 → 512 ≤ buf.length + pre.length →
    1 ≤ (burst buf pre).2 := by
  induction pre with
  | nil => intro buf h1 h2; simp at h2; omega
  | cons c t ih =>
    intro buf h1 h2
    by_cases hlen : buf.length < 511
    · have hrec := ih (buf ++ [c]) (by simp; omega) (by simp at h2 ⊢; omega)
      rw [show burst buf (c :: t) = burst (buf ++ [c]) t by simp [burst, hlen]]
      exact hrec
    · rw [show burst buf (c :: t) = ((burst [] t).1, (burst [] t).2 + 1) by
        simp [burst, hlen]]
      simp

/-- Scanning a terminator-free span accumulates it into the line buffer
(with resets and warnings once full) and then continues with the rest. -/
theorem procChunk_nocrlf (pre : List Char) :
    ∀ buf rest : List Char, (∀ c ∈ pre, c ≠ '\r' ∧ c ≠ '\n') →
    procChunk buf (pre ++ rest) =
      ⟨(procChunk (burst buf pre).1 rest).buf,
       (procChunk (burst buf pre).1 rest).lines,
       (burst buf pre).2 + (procChunk (burst buf pre).1 rest).warns,
       (procChunk (burst buf pre).1 rest).term⟩ := by
  induction pre with
  | nil =>
    intro buf rest h
    simp [burst]
  | cons c t ih =>
    intro buf rest h
    have hc := h c (by simp)
    rw [List.cons_append, procChunk_other buf c (t ++ rest) hc.1 hc.2]
    by_cases hlen : buf.length < 511
    · rw [if_pos hlen, ih (buf ++ [c]) rest (fun a ha => h a (by simp [ha]))]
      rw [show burst buf (c :: t) = burst (buf ++ [c]) t by simp [burst, hlen]]
    · rw [if_neg hlen, ih [] rest (fun a ha => h a (by simp [ha]))]
      rw [show burst buf (c :: t) = ((burst [] t).1, (burst [] t).2 + 1) by
        simp [burst, hlen]]
      simp
      omega

/-! ### Concrete data for evaluated claims -/

/-- History entry A used in the claim C1 scenario. -/
def itA : Item := ⟨'1', ['A'], ['s', 'a'], ['h', 'a'], 70⟩

/-- History entry B used in the claim C1 scenario. -/
def itB : Item := ⟨'1', ['B'], ['s', 'b'], ['h', 'b'], 70⟩

/-- History entry C used in the claim C1 scenario. -/
def itC : Item := ⟨'1', ['C'], ['s', 'c'], ['h', 'c'], 70⟩

/-- The scripted response of claim C5. -/
def c5resp : List Char := "1Menu Item\tsel\thost\t70\r\n.\r\n".toList

/-- A 513 byte terminator-free line whose residual tail after the buffer
reset is exactly the dot (claim C7 counterexample). -/
def c7long : List Char := List.replicate 511 'a' ++ ('b' :: '.' :: [])

/-! ### Claim theorems -/

/-- Claim C1 (code_bug evaluation): with the empty history, recordVisit(A),
recordVisit(B), goBack(1) replays the location of A, but the subsequent
recordVisit(C) leaves the history as [C] of length 1: the menutrunc cursor
clamp makes the truncation discard A as well as B, not only B as the claim
states. -/
theorem c1_history_eval :
    (back (recordVisit (recordVisit ⟨[], 0⟩ itA) itB) 1).2 = some itA ∧
    (recordVisit (back (recordVisit (recordVisit ⟨[], 0⟩ itA) itB) 1).1 itC).items = [itC] ∧
    (recordVisit (back (recordVisit (recordVisit ⟨[], 0⟩ itA) itB) 1).1 itC).items ≠
      [itA, itC] := by
  decide

/-- Claim C3 counterexample: parsing "gopher://example.com/1/foo" does not
produce type 1 with selector /foo; the character consumed as the item type
is the slash itself. -/
theorem c3_counterexample :
    parseurl "gopher://example.com/1/foo".toList ≠
      some ⟨'1', "/foo".toList, "example.com".toList, 70⟩ := by
  decide

/-- Claim C3 amended: parsing "gopher://example.com/1/foo" succeeds and
yields item type the slash character, selector "1/foo", host "example.com"
and port 70: the first character after the host, here the slash, is
consumed as the type, and everything after it is the selector. -/
theorem c3_parse_amended :
    parseurl "gopher://example.com/1/foo".toList =
      some ⟨'/', "1/foo".toList, "example.com".toList, 70⟩ := by
  decide

/-- Claim C4 (code_bug evaluation): for the empty selector the client
transmits three bytes, CR LF NUL, not the two bytes CR LF the claim
predicates: sendreq asks send(2) for strlen(sel) + 3 bytes, which includes
the string terminator written by snprintf. A write of only the two
intended bytes would even be treated as a failed (short) send, while a
write of all three bytes succeeds. -/
theorem c4_request_eval :
    sendreqBytes [] = ['\r', '\n', Char.ofNat 0] ∧
    sendreqBytes [] ≠ ['\r', '\n'] ∧
    sendreqFails [] 2 = true ∧
    sendreqFails [] 3 = false := by
  decide

/-- Claim C5: the scripted response "1Menu Item\tsel\thost\t70\r\n.\r\n"
terminates the fetch at the "." line, the structured handler is fed exactly
the one entry line and never the terminator line, and replaying the handler
calls builds the single menu item (1, Menu Item, sel, host, 70). -/
theorem c5_scripted_response :
    recvcontent [c5resp] = ⟨["1Menu Item\tsel\thost\t70".toList], 0, true⟩ ∧
    ['.'] ∉ (recvcontent [c5resp]).lines ∧
    runHandler menuaddline [] (recvcontent [c5resp]).lines =
      [⟨'1', "Menu Item".toList, "sel".toList, "host".toList, 70⟩] := by
  decide

/-- Claim C8: a goBack delta whose target cursor position falls outside the
valid index range [0, length) is refused: back returns no item and leaves
the history, in particular the cursor, unchanged. This covers both ends:
delta larger than the current position and negative delta reaching beyond
the history length. -/
theorem c8_goback_noop (h : Menu) (d : Int)
    (hout : (h.pos : Int) - d < 0 ∨ (h.items.length : Int) ≤ (h.pos : Int) - d) :
    back h d = (h, none) := by
  unfold back
  split_ifs with h0 h1 h2
  · rfl
  · exact absurd hout (by push_neg; constructor <;> omega)
  · rfl
  · exact absurd hout (by push_neg; constructor <;> omega)

/-- Claim C8 witness: in a one-entry history with cursor 1, going back by 2
and going forward by 2 are both refused with the state unchanged. -/
theorem c8_goback_noop_witness :
    back ⟨[itA], 1⟩ 2 = (⟨[itA], 1⟩, none) ∧
    back ⟨[itA], 1⟩ (-2) = (⟨[itA], 1⟩, none) :=
  ⟨c8_goback_noop ⟨[itA], 1⟩ 2 (by decide), c8_goback_noop ⟨[itA], 1⟩ (-2) (by decide)⟩

/-- Claim C2 counterexample: the round trip is not the identity on the
valid location string "h/1x" (host h, type 1, selector x): the parser takes
the slash separator itself as the item type, so reformatting doubles the
slash. -/
theorem c2_counterexample :
    roundtrip "h/1x".toList = some "h//1x".toList ∧
    roundtrip "h/1x".toList ≠ some "h/1x".toList := by
  decide

/-- Claim C2 amended: on every location string host[:port]/Tselector (host
free of colon and slash; canonical decimal port within the short range),
parse-then-reformat does not return the original string: the parsed type is
the literal slash and the parsed selector is Tselector, so the title comes
back as host[:port]//Tselector. The default-port rule does hold:
the :port part is omitted exactly when the port is 70. -/
theorem c2_roundtrip_amended (host : List Char) (T : Char) (sel : List Char)
    (hh : ∀ a ∈ host, notHostEnd a = true) :
    roundtrip (host ++ '/' :: T :: sel) = some (host ++ '/' :: '/' :: T :: sel) ∧
    (∀ p : Nat, p ≤ 32767 →
      roundtrip (host ++ ':' :: (natDigits p ++ '/' :: T :: sel)) =
        some (if (p : Int) = 70 then host ++ '/' :: '/' :: T :: sel
              else host ++ ':' :: (natDigits p ++ '/' :: '/' :: T :: sel))) := by
  constructor
  · have h1 := parseurl_noport host T sel hh
    simp [roundtrip, h1, titleOf, fmturlRaw]
  · intro p hp
    have hmem := natDigits_mem p
    have hslash : ∀ a ∈ natDigits p, notSlash a = true :=
      fun a ha => (digitChars_class a (hmem a ha)).2.2.2.2.1
    have h1 := parseurl_port host (natDigits p) T sel hh hslash
      (fun hx => natDigits_ne_nil p hx.2.1)
    rw [strtonum_digits (natDigits p) (natDigits_ne_nil p) hmem, natDigits_val] at h1
    rw [if_pos (by exact_mod_cast hp)] at h1
    have hnn : ¬((p : Int) < 0) := by omega
    by_cases hp70 : (p : Int) = 70
    · simp [roundtrip, h1, titleOf, fmturlRaw, hp70]
    · simp [roundtrip, h1, titleOf, fmturlRaw, hp70, intDec, hnn, Int.toNat_natCast,
        List.cons_append, List.append_assoc]

/-- Claim C2 witness: the amended round trip evaluated at host h, type 1,
selector x, without a port and with port 105. -/
theorem c2_roundtrip_witness :
    roundtrip ("h".toList ++ '/' :: '1' :: "x".toList) =
      some ("h".toList ++ '/' :: '/' :: '1' :: "x".toList) ∧
    roundtrip ("h".toList ++ ':' :: (natDigits 105 ++ '/' :: '1' :: "x".toList)) =
      some ("h".toList ++ ':' :: (natDigits 105 ++ '/' :: '/' :: '1' :: "x".toList)) := by
  have h := c2_roundtrip_amended "h".toList '1' "x".toList (by decide)
  refine ⟨h.1, ?_⟩
  have h2 := h.2 105 (by omega)
  rw [if_neg (by decide)] at h2
  exact h2

/-- Claim C6: with every other part of the input well formed, location
parsing and menu entry-line parsing fail with the invalid-port error
exactly when the present port field is non-numeric or denotes a value
outside [0, 32767], and both accept every denoted in-range value with that
value — a full biconditional against the claim-side numeric predicate
portNumeric, covering non-numeric fields (empty, bare signs, whitespace,
embedded junk), values above 32767 and negative values below the range.
(One corner is excluded by hypothesis: an empty port field on host gopher
with type slash, where the whole string is the scheme prefix itself and no
port field survives parsing.) -/
theorem c6_port_validation (host : List Char) (T : Char) (sel : List Char)
    (m : List Item) (nm sl hs ps : List Char)
    (hh : ∀ a ∈ host, notHostEnd a = true)
    (hnm : ∀ a ∈ nm, (!(a == '\t')) = true)
    (hsl : ∀ a ∈ sl, (!(a == '\t')) = true)
    (hhs : ∀ a ∈ hs, (!(a == '\t')) = true)
    (hps : ∀ a ∈ ps, notSlash a = true)
    (hpt : ∀ a ∈ ps, (!(a == '\t')) = true)
    (hexc : ¬(host = "gopher".toList ∧ ps = [] ∧ T = '/')) :
    (parseurl (host ++ ':' :: (ps ++ '/' :: T :: sel)) = none ↔
       ¬∃ v : Int, portNumeric ps v ∧ 0 ≤ v ∧ v ≤ 32767) ∧
    ((menuaddline m (T :: (nm ++ '\t' :: (sl ++ '\t' :: (hs ++ '\t' :: ps))))).2 = true ↔
       ¬∃ v : Int, portNumeric ps v ∧ 0 ≤ v ∧ v ≤ 32767) ∧
    (∀ v : Int, portNumeric ps v → 0 ≤ v → v ≤ 32767 →
       parseurl (host ++ ':' :: (ps ++ '/' :: T :: sel)) =
         some ⟨'/', T :: sel, host, v⟩ ∧
       menuaddline m (T :: (nm ++ '\t' :: (sl ++ '\t' :: (hs ++ '\t' :: ps)))) =
         (m ++ [⟨T, nm, sl, hs, v⟩], false)) := by
  have hp1 := parseurl_port host ps T sel hh hps hexc
  have hm1 := menuaddline_fields m T nm sl hs ps hnm hsl hhs hpt
  refine ⟨?_, ?_, ?_⟩
  · rw [hp1]
    cases hst : strtonum ps 0 32767 with
    | none =>
      exact ⟨fun _ => (strtonum_none_iff ps).mp hst, fun _ => rfl⟩
    | some p =>
      constructor
      · intro hcontra
        exact absurd hcontra (by simp)
      · intro hnone
        exact absurd ⟨p, (strtonum_some_iff ps p).mp hst⟩ hnone
  · rw [hm1]
    cases hst : strtonum ps 0 32767 with
    | none =>
      exact ⟨fun _ => (strtonum_none_iff ps).mp hst, fun _ => rfl⟩
    | some p =>
      constructor
      · intro hfalse
        exact absurd hfalse (by simp)
      · intro hnone
        exact absurd ⟨p, (strtonum_some_iff ps p).mp hst⟩ hnone
  · intro v hv hge hle
    have hst : strtonum ps 0 32767 = some v := (strtonum_some_iff ps v).mpr ⟨hv, hge, hle⟩
    rw [hp1, hm1, hst]
    exact ⟨rfl, rfl⟩

/-- Claim C6 witness: host h, entry fields n, s, hh; the in-range port 105
is accepted by both parsers with value 105, and applying the failure
biconditionals to the evaluated rejections of the ports -1 (below the
range) and + (non-numeric) yields that neither denotes an in-range value. -/
theorem c6_port_validation_witness :
    (parseurl ("h".toList ++ ':' :: ("105".toList ++ '/' :: '1' :: "x".toList)) =
       some ⟨'/', '1' :: "x".toList, "h".toList, 105⟩ ∧
     menuaddline [] ('1' :: ("n".toList ++ '\t' :: ("s".toList ++ '\t' ::
        ("hh".toList ++ '\t' :: "105".toList)))) =
       ([⟨'1', "n".toList, "s".toList, "hh".toList, 105⟩], false)) ∧
    (¬∃ v : Int, portNumeric "-1".toList v ∧ 0 ≤ v ∧ v ≤ 32767) ∧
    (¬∃ v : Int, portNumeric "+".toList v ∧ 0 ≤ v ∧ v ≤ 32767) := by
  have h105 := c6_port_validation "h".toList '1' "x".toList [] "n".toList "s".toList
    "hh".toList "105".toList (by decide) (by decide) (by decide) (by decide)
    (by decide) (by decide) (by decide)
  have hm1 := c6_port_validation "h".toList '1' "x".toList [] "n".toList "s".toList
    "hh".toList "-1".toList (by decide) (by decide) (by decide) (by decide)
    (by decide) (by decide) (by decide)
  have hpl := c6_port_validation "h".toList '1' "x".toList [] "n".toList "s".toList
    "hh".toList "+".toList (by decide) (by decide) (by decide) (by decide)
    (by decide) (by decide) (by decide)
  refine ⟨h105.2.2 105 ⟨[], [], "105".toList, by simp, Or.inl rfl, by decide, by decide,
    rfl, by decide⟩ (by omega) (by omega), hm1.1.mp (by decide), hpl.2.1.mp (by decide)⟩

/-- Claim C9: a replay triggered by back calls navigate with addhist = 0,
so the history item sequence and its length after the whole back action are
exactly what they were before; only the cursor can differ. -/
theorem c9_replay_frame (h : Menu) (d : Int) :
    (goBackStep h d).items = h.items ∧
    (goBackStep h d).items.length = h.items.length := by
  have hstep : goBackStep h d = (back h d).1 := by
    unfold goBackStep
    rcases hb : back h d with ⟨h1, oi⟩
    cases oi <;> simp [navHist]
  have hitems : (back h d).1.items = h.items := by
    unfold back
    split_ifs <;> rfl
  rw [hstep, hitems]
  exact ⟨rfl, rfl⟩

/-- Claim C7 counterexample: the response chunk made of a 513 byte line
(511 letters a, then b, then a dot), its newline, and a further line xy
shows that a fetch is not always able to process the lines following an
overlong line: the buffer reset drops the bytes before the final dot, the
residual line "." is then taken as the response terminator, and the fetch
ends with no line ever reaching the handler, so xy is never processed. -/
theorem c7_counterexample :
    c7long.length = 513 ∧
    (∀ c ∈ c7long, c ≠ '\r' ∧ c ≠ '\n') ∧
    recvcontent [c7long ++ '\n' :: "xy\n".toList] = ⟨[], 1, true⟩ := by
  decide

/-- Claim C7 amended: for every received line strictly longer than 512
bytes, at least one truncation warning is reported and the line buffer
resets; the fetch is not aborted: the residual tail of the line after the
last reset becomes a fresh line, and the following bytes are processed
exactly as usual — unless that residual tail is exactly ".", in which case
it is taken as the response terminator and the fetch ends successfully
right there, discarding the rest. -/
theorem c7_overlong_amended (long after : List Char)
    (hfree : ∀ c ∈ long, c ≠ '\r' ∧ c ≠ '\n') (hlen : 512 < long.length) :
    1 ≤ (burst [] long).2 ∧
    procChunk [] (long ++ '\n' :: after) =
      (if (burst [] long).1 = ['.'] then ⟨[], [], (burst [] long).2, true⟩
       else
        ⟨(procChunk [] after).buf,
         (burst [] long).1 :: (procChunk [] after).lines,
         (burst [] long).2 + (procChunk [] after).warns,
         (procChunk [] after).term⟩) := by
  refine ⟨burst_warns long [] (by simp) (by simp; omega), ?_⟩
  rw [procChunk_nocrlf long [] ('\n' :: after) hfree]
  rw [procChunk_newline (burst [] long).1 after]
  by_cases hdot : (burst [] long).1 = ['.']
  · rw [if_pos hdot, if_pos hdot]
    simp
  · rw [if_neg hdot, if_neg hdot]

/-- Claim C7 witness: a 513 byte line of letters a followed by a line x;
the warning fires once and the line x is still processed. -/
theorem c7_overlong_amended_witness :
    1 ≤ (burst [] (List.replicate 513 'a')).2 ∧
    procChunk [] (List.replicate 513 'a' ++ '\n' :: "x\n".toList) =
      (if (burst [] (List.replicate 513 'a')).1 = ['.']
       then ⟨[], [], (burst [] (List.replicate 513 'a')).2, true⟩
       else
        ⟨(procChunk [] "x\n".toList).buf,
         (burst [] (List.replicate 513 'a')).1 :: (procChunk [] "x\n".toList).lines,
         (burst [] (List.replicate 513 'a')).2 + (procChunk [] "x\n".toList).warns,
         (procChunk [] "x\n".toList).term⟩) :=
  c7_overlong_amended (List.replicate 513 'a') "x\n".toList (by decide) (by decide)

/-- Claim C10: when the stream ends with a pending unterminated line that
is exactly ".", the line is flushed to the handler like any other partial
line — with the informational handler it is appended to the menu — and it
is not recognized as the terminator: the run does not report the
terminator, which is detected only on lines ended by CR or LF. -/
theorem c10_pending_dot (pre : List Char)
    (hfree : ∀ c ∈ pre, c ≠ '\r' ∧ c ≠ '\n') (hlen : pre.length ≤ 511)
    (hne : pre ≠ ['.']) :
    recvcontent [pre ++ '\n' :: ['.']] = ⟨[pre, ['.']], 0, false⟩ ∧
    runHandler menuaddtextline [] [pre, ['.']] =
      [⟨'i', pre, "null".toList, "null".toList, 0⟩,
       ⟨'i', ['.'], "null".toList, "null".toList, 0⟩] := by
  constructor
  · have hp : procChunk [] (pre ++ '\n' :: ['.']) = ⟨['.'], [pre], 0, false⟩ := by
      rw [procChunk_nocrlf pre [] ('\n' :: ['.']) hfree]
      rw [burst_small pre [] (by simpa using hlen)]
      simp only [List.nil_append]
      rw [procChunk_newline pre ['.'], if_neg hne]
      simp [show procChunk [] ['.'] = ⟨['.'], [], 0, false⟩ from rfl]
    simp [recvcontent, recvGo, hp]
  · rfl

/-- Claim C10 witness: the stream "abc", newline, dot, ending without a
line terminator. -/
theorem c10_pending_dot_witness :
    recvcontent ["abc".toList ++ '\n' :: ['.']] = ⟨["abc".toList, ['.']], 0, false⟩ ∧
    runHandler menuaddtextline [] ["abc".toList, ['.']] =
      [⟨'i', "abc".toList, "null".toList, "null".toList, 0⟩,
       ⟨'i', ['.'], "null".toList, "null".toList, 0⟩] :=
  c10_pending_dot "abc".toList (by decide) (by decide) (by decide)

end Goph
